import Mathlib

/-!
Verification of the stream-extraction engine and multi-source driver of the
head utility (src/src/posix/head/mod.rs).  Byte streams are modelled as
List Nat (one Nat per byte), readers as the not-yet-consumed suffix of the
stream, and writers as the list of bytes written so far.  Each Lean
definition embeds the Rust function of the same name.
-/

namespace Mesabox

/-- The bytes of an ASCII string literal, used to write concrete streams. -/
def strBytes (s : String) : List Nat := s.toList.map Char.toNat

/-- One BufRead::read_until call with delimiter b'\n' (byte 10): the line
read (delimiter included when found) and the rest of the stream.  A return
of an empty line means the reader was at end-of-stream (read_until
returned 0). -/
def readUntil : List Nat → List Nat × List Nat
  | [] => ([], [])
  | b :: rest =>
    if b = 10 then ([b], rest)
    else (b :: (readUntil rest).1, (readUntil rest).2)

theorem readUntil_append (input : List Nat) :
    (readUntil input).1 ++ (readUntil input).2 = input := by
  induction input with
  | nil => rfl
  | cons b rest ih =>
    simp only [readUntil]
    by_cases h : b = 10
    · simp [h]
    · simp [h, ih]

theorem readUntil_fst_eq_nil_iff (input : List Nat) :
    (readUntil input).1 = [] ↔ input = [] := by
  cases input with
  | nil => simp [readUntil]
  | cons b rest =>
    simp only [readUntil]
    by_cases h : b = 10 <;> simp [h]

theorem readUntil_snd_length_lt (input : List Nat) (h : input ≠ []) :
    (readUntil input).2.length < input.length := by
  have happ := readUntil_append input
  have h1 : (readUntil input).1 ≠ [] := by
    rw [ne_eq, readUntil_fst_eq_nil_iff]; exact h
  have : (readUntil input).1.length + (readUntil input).2.length = input.length := by
    rw [← List.length_append, happ]
  have : 0 < (readUntil input).1.length := List.length_pos.mpr h1
  omega

/-- The decomposition of a stream into delimited lines: each line ends with
byte 10 except possibly the last.  This is the reference decomposition the
line-mode theorems are stated against. -/
def linesOf (input : List Nat) : List (List Nat) :=
  if h : input = [] then []
  else (readUntil input).1 :: linesOf (readUntil input).2
termination_by input.length
decreasing_by exact readUntil_snd_length_lt input h

theorem linesOf_nil : linesOf [] = [] := by
  rw [linesOf]; rfl

theorem linesOf_cons (input : List Nat) (h : input ≠ []) :
    linesOf input = (readUntil input).1 :: linesOf (readUntil input).2 := by
  rw [linesOf]; simp [h]

theorem linesOf_eq_nil_iff (input : List Nat) : linesOf input = [] ↔ input = [] := by
  constructor
  · intro he
    by_contra h
    rw [linesOf_cons input h] at he
    exact List.cons_ne_nil _ _ he
  · intro h; subst h; exact linesOf_nil

theorem linesOf_flatten (input : List Nat) : (linesOf input).flatten = input := by
  induction input using linesOf.induct with
  | case1 => simp [linesOf_nil]
  | case2 input h ih =>
    rw [linesOf_cons input h]
    simp only [List.flatten_cons, ih]
    exact readUntil_append input

theorem linesOf_ne_nil_mem (input : List Nat) :
    ∀ l ∈ linesOf input, l ≠ [] := by
  induction input using linesOf.induct with
  | case1 => intro l hm; rw [linesOf_nil] at hm; cases hm
  | case2 input h ih =>
    intro l hm
    rw [linesOf_cons input h] at hm
    cases hm with
    | head => rw [ne_eq, readUntil_fst_eq_nil_iff]; exact h
    | tail _ hm2 => exact ih l hm2

/-- write_lines_forward (head/mod.rs:200): read one line at a time with
read_until, write it, decrement the remaining count; stop when the count
reaches 0 or read_until reads nothing (end-of-stream). -/
def write_lines_forward : List Nat → Nat → List Nat
  | _, 0 => []
  | input, n + 1 =>
    if input = [] then []
    else (readUntil input).1 ++ write_lines_forward (readUntil input).2 n

/-- The io::copy(&mut input.take(limit), &mut output) call of handle_data
(head/mod.rs:191): repeatedly read up to 8192 bytes (io::copy's internal
buffer) through a Take adaptor capped at limit, writing each chunk, until a
read returns no bytes. -/
def ioCopy (limit : Nat) (input : List Nat) : List Nat :=
  if h : input.take (min 8192 limit) = [] then []
  else
    input.take (min 8192 limit) ++
      ioCopy (limit - min 8192 limit) (input.drop (min 8192 limit))
termination_by input.length
decreasing_by
  have h1 : input ≠ [] := by
    intro he; subst he; simp at h
  have h2 : min 8192 limit ≠ 0 := by
    intro he; rw [he] at h; simp at h
  simp only [List.length_drop]
  have := List.length_pos.mpr h1
  omega

/-- The read loop of write_bytes_backward (head/mod.rs:283): fill the current
buffer with up to size bytes through a Take adaptor; if the read filled it
completely (n == size), write the previous buffer out in full, swap the two
buffers and clear the new current one; a short read ends the loop.  Returns
(bytes written, final prev_buffer, final cur_buffer).  The source always
calls it with size = bytes.max(32 * 1024), so the 0 < size guard (added here
so the recursion is well founded) never fails there. -/
def wbbLoop (size : Nat) : List Nat → List Nat → List Nat × List Nat × List Nat
  | input, prev =>
    if h : (input.take size).length = size ∧ 0 < size then
      (prev ++ (wbbLoop size (input.drop size) (input.take size)).1,
        (wbbLoop size (input.drop size) (input.take size)).2)
    else ([], prev, input.take size)
termination_by input => input.length
decreasing_by
  simp only [List.length_take] at h
  simp only [List.length_drop]
  omega

/-- The post-loop trimming of write_bytes_backward (head/mod.rs:293): from
the unwritten window prev_buffer ++ cur_buffer, write everything but the
last K bytes, consuming into prev_buffer when cur_buffer alone is shorter
than K. -/
def tailWrite (bytes : Nat) (prev cur : List Nat) : List Nat :=
  if cur.length = 0 then
    if bytes < prev.length then prev.take (prev.length - bytes) else []
  else
    if bytes < cur.length then prev ++ cur.take (cur.length - bytes)
    else prev.take (prev.length - min (bytes - cur.length) prev.length)

/-- write_bytes_backward (head/mod.rs:259) with the buffer capacity size
made explicit: the double-buffer read loop followed by the trimming
arithmetic. -/
def write_bytes_backward (size bytes : Nat) (input : List Nat) : List Nat :=
  (wbbLoop size input []).1 ++
    tailWrite bytes (wbbLoop size input []).2.1 (wbbLoop size input []).2.2

/-- write_bytes_backward exactly as the source runs it: the capacity is
bytes.max(32 * 1024) (head/mod.rs:271). -/
def write_bytes_backward_main (bytes : Nat) (input : List Nat) : List Nat :=
  write_bytes_backward (max bytes (32 * 1024)) bytes input

/-- The fill phase of write_lines_backward (head/mod.rs:238): read the first
line_count lines into the queue; none is the early Ok(()) return taken when
end-of-stream arrives first, some gives the queue and the unread rest. -/
def wlbFill : List Nat → List (List Nat) → Nat → Option (List (List Nat) × List Nat)
  | input, store, 0 => some (store, input)
  | input, store, n + 1 =>
    if input = [] then none
    else wlbFill (readUntil input).2 (store ++ [(readUntil input).1]) n

/-- The drain loop of write_lines_backward (head/mod.rs:245): pop the oldest
queued line, write it, then read one more line into the queue; stop at
end-of-stream.  The empty-queue case is unreachable from
write_lines_backward (the source unwraps there). -/
def wlbLoop : List Nat → List (List Nat) → List Nat
  | _, [] => []
  | input, front :: rest =>
    front ++
      (if h : input = [] then []
       else wlbLoop (readUntil input).2 (rest ++ [(readUntil input).1]))
termination_by input _ => input.length
decreasing_by exact readUntil_snd_length_lt input h

/-- write_lines_backward (head/mod.rs:222): buffer line_count lines, read one
more (returning without output if the stream ended first), then write one
old line per newly read line until end-of-stream; the lines left in the
queue are discarded. -/
def write_lines_backward (input : List Nat) (line_count : Nat) : List Nat :=
  match wlbFill input [] line_count with
  | none => []
  | some (store, rest) =>
    if rest = [] then []
    else wlbLoop (readUntil rest).2 (store ++ [(readUntil rest).1])

/-- The fill phase of write_lines_backward again, tracking only the queue
length and the largest length the queue reaches right after a push_back
(head/mod.rs:234).  Control flow is the same as wlbFill. -/
def wlbFillQ : List Nat → Nat → Nat → Nat → Nat × Option (Nat × List Nat)
  | input, len, mx, 0 => (mx, some (len, input))
  | input, len, mx, n + 1 =>
    if input = [] then (mx, none)
    else wlbFillQ (readUntil input).2 (len + 1) (max mx (len + 1)) n

/-- The drain loop of write_lines_backward, tracking the queue length and
its maximum: each iteration pops one line (length m) and, unless the stream
ended, pushes the newly read one (length back to m + 1). -/
def wlbLoopQ : List Nat → Nat → Nat → Nat
  | _, 0, mx => mx
  | input, m + 1, mx =>
    if h : input = [] then mx
    else wlbLoopQ (readUntil input).2 (m + 1) (max mx (m + 1))
termination_by input _ _ => input.length
decreasing_by exact readUntil_snd_length_lt input h

/-- The largest number of lines the store queue of write_lines_backward ever
holds on the given input (measured after each push_back), following the
same control flow as write_lines_backward. -/
def wlbMaxQueue (input : List Nat) (line_count : Nat) : Nat :=
  match wlbFillQ input 0 0 line_count with
  | (mx, none) => mx
  | (mx, some (len, rest)) =>
    if rest = [] then mx
    else wlbLoopQ (readUntil rest).2 (len + 1) (max mx (len + 1))

/-- The Mode enum of head/mod.rs:37: a byte or line count plus the sign flag
parse_num produced (true = first N, false = all but the last N). -/
inductive Mode
  | bytes : Nat → Bool → Mode
  | lines : Nat → Bool → Mode

/-- The dispatch of handle_data (head/mod.rs:181) restricted to the
extraction itself: which engine function runs for each mode. -/
def runMode : Mode → List Nat → List Nat
  | .lines n true, input => write_lines_forward input n
  | .lines n false, input => write_lines_backward input n
  | .bytes k true, input => ioCopy k input
  | .bytes k false, input => write_bytes_backward_main k input

/-- The whitespace str::trim removes, restricted to the ASCII range (the
numeric arguments the utility parses are ASCII). -/
def isRustWhitespace (c : Char) : Bool :=
  c = ' ' || c = '\t' || c = '\n' || c = '\r' || c.toNat = 11 || c.toNat = 12

/-- str::trim: remove leading and trailing whitespace. -/
def rustTrim (cs : List Char) : List Char :=
  ((cs.dropWhile isRustWhitespace).reverse.dropWhile isRustWhitespace).reverse

/-- The exponent a magnitude suffix letter denotes (k/K = 1 up to y/Y = 8). -/
def suffixExp (c : Char) : Option Nat :=
  if c = 'k' ∨ c = 'K' then some 1
  else if c = 'm' ∨ c = 'M' then some 2
  else if c = 'g' ∨ c = 'G' then some 3
  else if c = 't' ∨ c = 'T' then some 4
  else if c = 'p' ∨ c = 'P' then some 5
  else if c = 'e' ∨ c = 'E' then some 6
  else if c = 'z' ∨ c = 'Z' then some 7
  else if c = 'y' ∨ c = 'Y' then some 8
  else none

/-- Modelled from the spec: the multiplier a suffix selects.  An empty
suffix multiplies by 1, a bare b by 512, a magnitude letter followed by B
by the decimal power 1000^i, an uppercase magnitude letter alone by 1000^i,
a lowercase one alone by the binary power 1024^i. -/
def suffixMult : List Char → Option Nat
  | [] => some 1
  | [c] =>
    if c = 'b' then some 512
    else (suffixExp c).map fun e => if c.isUpper then 1000 ^ e else 1024 ^ e
  | [c, b2] =>
    if b2 = 'B' then (suffixExp c).map fun e => 1000 ^ e else none
  | _ => none

/-- The numeric value of a digit string (most significant digit first). -/
def digitsVal (cs : List Char) : Nat :=
  cs.foldl (fun a c => 10 * a + (c.toNat - 48)) 0

/-- Modelled from the spec: util::parse_num_with_suffix, whose source file is
not among the repository files.  The argument must be one or more digits
followed by an optional multiplier suffix; the magnitude times the
multiplier must fit the platform native unsigned range, modelled as 64
bits. -/
def parse_num_with_suffix (cs : List Char) : Option Nat :=
  if cs.takeWhile Char.isDigit = [] then none
  else
    match suffixMult (cs.dropWhile Char.isDigit) with
    | none => none
    | some m =>
      if digitsVal (cs.takeWhile Char.isDigit) * m < 2 ^ 64 then
        some (digitsVal (cs.takeWhile Char.isDigit) * m)
      else none

/-- parse_num (head/mod.rs:313): trim the argument, treat a leading dash as
the sign (positive = false), strip every leading dash with
trim_left_matches, and hand the remainder to parse_num_with_suffix. -/
def parse_num (cs : List Char) : Option (Nat × Bool) :=
  match rustTrim cs with
  | [] => none
  | c :: rest =>
    if c = '-' then
      (parse_num_with_suffix ((c :: rest).dropWhile fun x => x = '-')).map
        fun n => (n, false)
    else (parse_num_with_suffix (c :: rest)).map fun n => (n, true)

/-- Modelled from the spec: the crate error type as execute uses it.  The
source sets e.err = None on the returned value after printing the
diagnostic; only the rendered message and the optional underlying cause are
relevant here. -/
structure MesaError where
  msg : List Nat
  err : Option (List Nat)
deriving DecidableEq

/-- Modelled from the spec: the rendering a diagnostic line uses, the error
message followed by its underlying cause when still present. -/
def renderErr (e : MesaError) : List Nat :=
  e.msg ++ (match e.err with | some m => m | none => [])

/-- Modelled from the spec: display_msg! (head/mod.rs:135) writes one
diagnostic line per failure to the error channel. -/
def diagLine (e : MesaError) : List Nat := renderErr e ++ [10]

/-- e.err = None (head/mod.rs:136): the returned error keeps its message but
drops the underlying cause so the caller does not print the failure a
second time. -/
def clearErr (e : MesaError) : MesaError := ⟨e.msg, none⟩

/-- Where processing one source fails, if anywhere.  openFail is a failure
of File::open or lock_reader before anything is written; midFail is a
read/write failure after the header and body bytes were already written. -/
inductive Outcome
  | ok
  | openFail (e : MesaError)
  | midFail (e : MesaError)
deriving DecidableEq

/-- One source of the multi-source loop: its command-line name, the bytes
the engine writes for it before its outcome resolves (all of its output
when the outcome is ok, the partial output when it fails mid-stream), and
the outcome.  The engine run itself is covered by the runMode theorems;
here its output per source is taken as given. -/
structure Src where
  name : List Nat
  body : List Nat
  outcome : Outcome
deriving DecidableEq

/-- The error processing one source produces, if any. -/
def srcError (s : Src) : Option MesaError :=
  match s.outcome with
  | .ok => none
  | .openFail e => some e
  | .midFail e => some e

/-- The diagnostic bytes one source contributes to the error channel. -/
def srcDiag (s : Src) : List Nat :=
  match srcError s with
  | some e => diagLine e
  | none => []

/-- The display name handle_data prints: "-" stands for standard input
(head/mod.rs:128), a file name prints as itself. -/
def displayName (name : List Nat) : List Nat :=
  if name = strBytes "-" then strBytes "standard input" else name

/-- The header handle_data writes (head/mod.rs:172): a blank line first iff
a header was already printed, then the bracketed display name and the
newline of writeln. -/
def headerBytes (prev : Bool) (name : List Nat) : List Nat :=
  if prev then strBytes "\n==> " ++ name ++ strBytes " <==\n"
  else strBytes "==> " ++ name ++ strBytes " <==\n"

/-- One iteration of the FILES loop of execute (head/mod.rs:121), as far as
standard output goes: nothing is written when the source does not open
(File::open runs before handle_data); otherwise the header when the
display name was passed, then the body.  Returns the written bytes and the
updated previous_printed flag. -/
def processSrc (showHdr prev : Bool) (s : Src) : List Nat × Bool :=
  match s.outcome with
  | .openFail _ => ([], prev)
  | _ =>
    ((if showHdr then headerBytes prev (displayName s.name) else []) ++ s.body,
      prev || showHdr)

/-- What the running result is after one source: unchanged on success; on
failure the source's error with its cause cleared, overwriting whatever was
there (head/mod.rs:134). -/
def nextResult (s : Src) (result : Option MesaError) : Option MesaError :=
  match srcError s with
  | none => result
  | some e => some (clearErr e)

/-- The FILES loop of execute (head/mod.rs:116): process each source in
order; on failure write its diagnostic to the error channel (srcDiag is
empty on success), clear the error's cause and make it the running result,
and continue with the next source.  Returns (stdout bytes, stderr bytes,
final result). -/
def execLoop (showHdr : Bool) :
    List Src → Bool → Option MesaError → List Nat × List Nat × Option MesaError
  | [], _, result => ([], [], result)
  | s :: rest, prev, result =>
    ((processSrc showHdr prev s).1 ++
        (execLoop showHdr rest (processSrc showHdr prev s).2 (nextResult s result)).1,
      srcDiag s ++
        (execLoop showHdr rest (processSrc showHdr prev s).2 (nextResult s result)).2.1,
      (execLoop showHdr rest (processSrc showHdr prev s).2 (nextResult s result)).2.2)

/-- execute (head/mod.rs:47) on a FILES list: the header display name is
passed iff (file_count > 1 && !quiet) || verbose (head/mod.rs:122, with
clap's overrides_with already folded into the two flags), and the loop
starts with previous_printed = false and result = Ok. -/
def execute (quiet verbose : Bool) (srcs : List Src) :
    List Nat × List Nat × Option MesaError :=
  execLoop ((decide (1 < srcs.length) && !quiet) || verbose) srcs false none

/-- The last failing source's error, if any source fails. -/
def lastFailure : List Src → Option MesaError
  | [] => none
  | s :: rest =>
    match lastFailure rest with
    | some e => some e
    | none => srcError s

/-- The header policy of the spec: quiet selects Never, verbose selects
Always and overrides quiet, neither selects Default. -/
inductive HeaderPolicy
  | always
  | never
  | base

/-- The policy the two flags select (verbose overrides quiet). -/
def headerPolicyOf (quiet verbose : Bool) : HeaderPolicy :=
  if verbose then .always else if quiet then .never else .base

/-- Whether the policy asks for headers in an invocation naming count
sources: Always always, Never never, Default only when more than one
source is named. -/
def policyShows (p : HeaderPolicy) (count : Nat) : Bool :=
  match p with
  | .always => true
  | .never => false
  | .base => decide (1 < count)

/-- The header line format the spec states: ==> name <== and a newline. -/
def specHeaderLine (name : List Nat) : List Nat :=
  strBytes "==> " ++ name ++ strBytes " <==" ++ [10]

/-- The spec's description of the output: for each source that opens, a
header (when the policy asks for one) preceded by one blank line unless it
is the first header emitted in the invocation, then the source's bytes.
The counter k is how many headers were emitted before. -/
def specRender (sh : Bool) : List Src → Nat → List Nat
  | [], _ => []
  | s :: rest, k =>
    match s.outcome with
    | .openFail _ => specRender sh rest k
    | _ =>
      if sh then
        (if k = 0 then [] else [10]) ++ specHeaderLine (displayName s.name) ++
          s.body ++ specRender sh rest (k + 1)
      else s.body ++ specRender sh rest k

theorem take_min {α : Type} (l : List α) (n : Nat) :
    l.take (min n l.length) = l.take n := by
  cases Nat.le_total n l.length with
  | inl h => rw [Nat.min_eq_left h]
  | inr h => rw [Nat.min_eq_right h, List.take_length, List.take_of_length_le h]

theorem write_lines_forward_eq (n : Nat) :
    ∀ input : List Nat,
      write_lines_forward input n = ((linesOf input).take n).flatten := by
  induction n with
  | zero => intro input; simp [write_lines_forward]
  | succ n ih =>
    intro input
    by_cases h : input = []
    · subst h; simp [write_lines_forward, linesOf_nil]
    · rw [write_lines_forward, if_neg h, linesOf_cons input h,
        List.take_succ_cons, List.flatten_cons, ih]

/-- Claim C8: forward-line extraction (Mode::Lines with positive = true)
writes exactly the first min(N, total lines) lines of the stream, each with
its delimiter (a final line lacking the delimiter counts as a line of
linesOf), and the output is a prefix of the source stream. -/
theorem c8_forward_lines (n : Nat) (input : List Nat) :
    runMode (Mode.lines n true) input =
      ((linesOf input).take (min n (linesOf input).length)).flatten ∧
    ∃ t, runMode (Mode.lines n true) input ++ t = input := by
  have h1 : runMode (Mode.lines n true) input = ((linesOf input).take n).flatten := by
    simp [runMode, write_lines_forward_eq]
  constructor
  · rw [h1, take_min]
  · refine ⟨((linesOf input).drop n).flatten, ?_⟩
    rw [h1, ← List.flatten_append, List.take_append_drop, linesOf_flatten]

theorem ioCopy_eq_take (limit : Nat) (input : List Nat) :
    ioCopy limit input = input.take limit := by
  induction limit, input using ioCopy.induct with
  | case1 limit input h =>
    rw [ioCopy, dif_pos h]
    rcases List.take_eq_nil_iff.mp h with h2 | h2
    · have : limit = 0 := by omega
      subst this; simp
    · subst h2; simp
  | case2 limit input h ih =>
    rw [ioCopy, dif_neg h, ih]
    have hk : min 8192 limit ≤ limit := Nat.min_le_right _ _
    have h2 : input.take limit =
        input.take (min 8192 limit) ++
          (input.drop (min 8192 limit)).take (limit - min 8192 limit) := by
      rw [← List.take_add]
      congr 1
      omega
    rw [h2]

/-- Claim C9: forward-byte extraction (Mode::Bytes with positive = true)
writes exactly the first min(K, L) bytes of the stream, and the whole
stream when K is at least its length. -/
theorem c9_forward_bytes (k : Nat) (input : List Nat) :
    runMode (Mode.bytes k true) input = input.take (min k input.length) ∧
    (input.length ≤ k → runMode (Mode.bytes k true) input = input) := by
  have h1 : runMode (Mode.bytes k true) input = input.take k := by
    simp [runMode, ioCopy_eq_take]
  exact ⟨by rw [h1, take_min], fun h => by rw [h1, List.take_of_length_le h]⟩

theorem tailWrite_eq (bytes : Nat) (prev cur : List Nat) :
    tailWrite bytes prev cur = (prev ++ cur).take (prev.length + cur.length - bytes) := by
  unfold tailWrite
  split_ifs with h0 hb hb
  · have hc : cur = [] := List.length_eq_zero.mp h0
    subst hc
    simp
  · have hc : cur = [] := List.length_eq_zero.mp h0
    subst hc
    simp only [List.append_nil, List.length_nil, Nat.add_zero]
    have he : prev.length - bytes = 0 := by omega
    rw [he, List.take_zero]
  · have he : prev.length + cur.length - bytes =
        prev.length + (cur.length - bytes) := by omega
    rw [he, List.take_add, List.take_left, List.drop_left]
  · rw [List.take_append_eq_append_take]
    have he : prev.length + cur.length - bytes - prev.length = 0 := by omega
    rw [he, List.take_zero, List.append_nil]
    congr 1
    omega

theorem wbbLoop_spec (size : Nat) (hs : 0 < size) :
    ∀ input prev : List Nat,
      (wbbLoop size input prev).1 ++
          ((wbbLoop size input prev).2.1 ++ (wbbLoop size input prev).2.2) =
        prev ++ input ∧
      (wbbLoop size input prev).2.2.length < size ∧
      ((wbbLoop size input prev).1 = [] ∧ (wbbLoop size input prev).2.1 = prev ∨
        (wbbLoop size input prev).2.1.length = size) := by
  intro input prev
  induction input, prev using wbbLoop.induct size with
  | case1 input prev h ih =>
    rw [wbbLoop, dif_pos h]
    obtain ⟨ih1, ih2, ih3⟩ := ih
    refine ⟨?_, ih2, ?_⟩
    · simp only [List.append_assoc] at ih1 ⊢
      rw [ih1, List.take_append_drop]
    · right
      cases ih3 with
      | inl h3 => rw [h3.2, h.1]
      | inr h3 => exact h3
  | case2 input prev h =>
    rw [wbbLoop, dif_neg h]
    have hlen : input.length < size := by
      rcases Nat.lt_or_ge input.length size with h2 | h2
      · exact h2
      · exfalso
        exact h ⟨by rw [List.length_take]; omega, hs⟩
    have htake : input.take size = input := List.take_of_length_le (by omega)
    refine ⟨by simp [htake], ?_, Or.inl ⟨rfl, rfl⟩⟩
    show (input.take size).length < size
    rw [htake]
    exact hlen

theorem write_bytes_backward_eq (size bytes : Nat) (input : List Nat)
    (h1 : bytes ≤ size) (h2 : 0 < size) :
    write_bytes_backward size bytes input =
      input.take (input.length - min bytes input.length) := by
  obtain ⟨hcat, hlt, hdisj⟩ := wbbLoop_spec size h2 input []
  have hmin : input.length - min bytes input.length = input.length - bytes := by
    omega
  rw [hmin]
  unfold write_bytes_backward
  rw [tailWrite_eq]
  set w := (wbbLoop size input []).1 with hwdef
  set p := (wbbLoop size input []).2.1 with hpdef
  set c := (wbbLoop size input []).2.2 with hcdef
  simp only [List.nil_append] at hcat
  cases hdisj with
  | inl h =>
    obtain ⟨hw, hp⟩ := h
    rw [hw, hp] at hcat ⊢
    simp only [List.nil_append, List.length_nil, Nat.zero_add] at hcat ⊢
    rw [hcat]
  | inr hp =>
    rw [← hcat]
    have hbp : bytes ≤ p.length := by omega
    have hN : (w ++ (p ++ c)).length - bytes =
        w.length + (p.length + c.length - bytes) := by
      simp only [List.length_append]
      omega
    rw [hN, List.take_add, List.take_left, List.drop_left]

theorem write_bytes_backward_main_eq (bytes : Nat) (input : List Nat) :
    write_bytes_backward_main bytes input =
      input.take (input.length - min bytes input.length) := by
  unfold write_bytes_backward_main
  exact write_bytes_backward_eq _ bytes input (Nat.le_max_left _ _) (by omega)

/-- Claim C1: backward-byte extraction (Mode::Bytes with positive = false)
writes exactly the first L - min(K, L) bytes of the stream, for every
buffer capacity the loop can be run with (any size with K ≤ size and
0 < size; the source always picks size = max(K, 32768), which runMode
uses). -/
theorem c1_backward_bytes (size bytes : Nat) (input : List Nat)
    (h1 : bytes ≤ size) (h2 : 0 < size) :
    write_bytes_backward size bytes input =
      input.take (input.length - min bytes input.length) ∧
    runMode (Mode.bytes bytes false) input =
      input.take (input.length - min bytes input.length) := by
  exact ⟨write_bytes_backward_eq size bytes input h1 h2,
    write_bytes_backward_main_eq bytes input⟩

/-- Claim C1 witness: the 10-byte input abcdefghij with K = 3 and the
capacity the source picks yields abcdefg; with K = 10 the output is
empty. -/
theorem c1_backward_bytes_witness :
    3 ≤ 32 * 1024 ∧ 0 < 32 * 1024 ∧
    write_bytes_backward (32 * 1024) 3 (strBytes "abcdefghij") =
      strBytes "abcdefg" ∧
    runMode (Mode.bytes 10 false) (strBytes "abcdefghij") = [] := by
  refine ⟨by decide, by decide, ?_, ?_⟩
  · rw [(c1_backward_bytes (32 * 1024) 3 (strBytes "abcdefghij") (by decide)
      (by decide)).1]
    decide
  · rw [show runMode (Mode.bytes 10 false) (strBytes "abcdefghij") =
        write_bytes_backward (32 * 1024) 10 (strBytes "abcdefghij") from rfl]
    rw [(c1_backward_bytes (32 * 1024) 10 (strBytes "abcdefghij") (by decide)
      (by decide)).1]
    decide

/-- Claim C2 counterexample: on the 2-byte stream [0, 1] with K = 1,
forward-byte output [0] concatenated with backward-byte output [0] is
[0, 0], not the original stream. -/
theorem c2_roundtrip_counterexample :
    ioCopy 1 [0, 1] ++ runMode (Mode.bytes 1 false) [0, 1] ≠ [0, 1] ∧
    ioCopy 1 [0, 1] ++ runMode (Mode.bytes 1 false) [0, 1] = [0, 0] := by
  have hb : runMode (Mode.bytes 1 false) [0, 1] = [0] := by
    show write_bytes_backward_main 1 [0, 1] = [0]
    rw [write_bytes_backward_main_eq]
    decide
  have hf : ioCopy 1 [0, 1] = [0] := by rw [ioCopy_eq_take]; rfl
  rw [hb, hf]
  exact ⟨by decide, rfl⟩

/-- Claim C2 (amended): the two windows are complementary in length
(|forward(K)| = min(K, L) and |backward(K)| = L - min(K, L)); for K ≤ L it
is backward_bytes(K) followed by the stream's last K bytes that
reconstructs the original exactly; when K > L, forward-byte extraction
outputs the whole stream and backward-byte extraction outputs nothing. -/
theorem c2_roundtrip_amended (k : Nat) (input : List Nat) :
    (ioCopy k input).length = min k input.length ∧
    (runMode (Mode.bytes k false) input).length =
      input.length - min k input.length ∧
    (k ≤ input.length →
      runMode (Mode.bytes k false) input ++ input.drop (input.length - k) = input) ∧
    (input.length < k →
      ioCopy k input = input ∧ runMode (Mode.bytes k false) input = []) := by
  have hb : runMode (Mode.bytes k false) input =
      input.take (input.length - min k input.length) :=
    write_bytes_backward_main_eq k input
  have hf : ioCopy k input = input.take k := ioCopy_eq_take k input
  refine ⟨?_, ?_, ?_, ?_⟩
  · rw [hf, List.length_take]
  · rw [hb, List.length_take]
    omega
  · intro hk
    rw [hb]
    have he : input.length - min k input.length = input.length - k := by omega
    rw [he, List.take_append_drop]
  · intro hk
    refine ⟨by rw [hf]; exact List.take_of_length_le (by omega), ?_⟩
    rw [hb]
    have he : input.length - min k input.length = 0 := by omega
    rw [he, List.take_zero]

theorem wlbFill_spec (n : Nat) :
    ∀ (input : List Nat) (store : List (List Nat)),
      (wlbFill input store n = none ↔ (linesOf input).length < n) ∧
      ∀ store2 rest, wlbFill input store n = some (store2, rest) →
        store2 = store ++ (linesOf input).take n ∧
        linesOf rest = (linesOf input).drop n := by
  induction n with
  | zero =>
    intro input store
    refine ⟨by simp [wlbFill], ?_⟩
    intro store2 rest h
    rw [wlbFill] at h
    injection h with h2
    injection h2 with h3 h4
    subst h3; subst h4
    simp
  | succ n ih =>
    intro input store
    by_cases h : input = []
    · subst h
      refine ⟨by simp [wlbFill, linesOf_nil], ?_⟩
      intro store2 rest hf
      rw [wlbFill] at hf
      simp at hf
    · have hstep : wlbFill input store (n + 1) =
          wlbFill (readUntil input).2 (store ++ [(readUntil input).1]) n := by
        rw [wlbFill, if_neg h]
      obtain ⟨ihnone, ihsome⟩ := ih (readUntil input).2 (store ++ [(readUntil input).1])
      rw [linesOf_cons input h]
      constructor
      · rw [hstep, ihnone]
        simp only [List.length_cons]
        omega
      · intro store2 rest hf
        rw [hstep] at hf
        obtain ⟨h1, h2⟩ := ihsome store2 rest hf
        refine ⟨?_, by rw [h2, List.drop_succ_cons]⟩
        rw [h1, List.take_succ_cons]
        simp

theorem wlbLoop_eq (fuel : Nat) :
    ∀ (input : List Nat) (store : List (List Nat)),
      input.length ≤ fuel → store ≠ [] →
      wlbLoop input store =
        ((store ++ linesOf input).take (1 + (linesOf input).length)).flatten := by
  induction fuel with
  | zero =>
    intro input store hlen hne
    have h : input = [] := by
      cases input with
      | nil => rfl
      | cons a l => simp at hlen
    subst h
    match store, hne with
    | front :: rest, _ =>
      rw [wlbLoop, dif_pos rfl]
      simp [linesOf_nil]
  | succ fuel ih =>
    intro input store hlen hne
    match store, hne with
    | front :: rest, _ =>
      by_cases h : input = []
      · subst h
        rw [wlbLoop, dif_pos rfl]
        simp [linesOf_nil]
      · rw [wlbLoop, dif_neg h]
        have hlt := readUntil_snd_length_lt input h
        rw [ih (readUntil input).2 (rest ++ [(readUntil input).1]) (by omega)
          (by simp)]
        rw [linesOf_cons input h]
        have hc : (front :: rest) ++
            (readUntil input).1 :: linesOf (readUntil input).2 =
            front :: ((rest ++ [(readUntil input).1]) ++
              linesOf (readUntil input).2) := by
          simp
        rw [hc]
        have hn : 1 + ((readUntil input).1 :: linesOf (readUntil input).2).length =
            (1 + (linesOf (readUntil input).2).length) + 1 := by
          simp only [List.length_cons]
          omega
        rw [hn, List.take_succ_cons, List.flatten_cons]

theorem write_lines_backward_eq (input : List Nat) (n : Nat) :
    write_lines_backward input n =
      ((linesOf input).take ((linesOf input).length - n)).flatten := by
  unfold write_lines_backward
  obtain ⟨hnone, hsome⟩ := wlbFill_spec n input []
  cases hfill : wlbFill input [] n with
  | none =>
    have hlt := hnone.mp hfill
    have hz : (linesOf input).length - n = 0 := by omega
    rw [hz]
    simp
  | some pr =>
    obtain ⟨store, rest⟩ := pr
    obtain ⟨hstore, hrest⟩ := hsome store rest hfill
    simp only [List.nil_append] at hstore
    have hn_le : n ≤ (linesOf input).length := by
      by_contra hc
      rw [hnone.mpr (by omega)] at hfill
      exact Option.noConfusion hfill
    change (if rest = [] then [] else
        wlbLoop (readUntil rest).2 (store ++ [(readUntil rest).1])) =
      ((linesOf input).take ((linesOf input).length - n)).flatten
    by_cases hr : rest = []
    · rw [if_pos hr]
      subst hr
      rw [linesOf_nil] at hrest
      have hlen : (linesOf input).length ≤ n := by
        have := congrArg List.length hrest
        simp only [List.length_nil, List.length_drop] at this
        omega
      have hz : (linesOf input).length - n = 0 := by omega
      rw [hz]
      simp
    · rw [if_neg hr]
      have hlr := linesOf_cons rest hr
      have hlen1 : (linesOf input).length - n =
          1 + (linesOf (readUntil rest).2).length := by
        have := congrArg List.length hrest
        rw [hlr] at this
        simp only [List.length_cons, List.length_drop] at this
        omega
      have hX : (store ++ [(readUntil rest).1]) ++ linesOf (readUntil rest).2 =
          (linesOf input).take n ++ (linesOf input).drop n := by
        rw [← List.append_cons, ← hlr, hrest, hstore]
      rw [wlbLoop_eq ((readUntil rest).2.length) _ _ le_rfl (by simp), hX,
        List.take_append_drop, ← hlen1]

/-- Claim C3: backward-line extraction (Mode::Lines with positive = false)
writes exactly the stream's lines with the last N excluded (nothing when
the stream has at most N lines), and with N = 0 the output is the whole
input unchanged. -/
theorem c3_backward_lines (input : List Nat) (n : Nat) :
    runMode (Mode.lines n false) input =
      ((linesOf input).take ((linesOf input).length - n)).flatten ∧
    runMode (Mode.lines 0 false) input = input := by
  constructor
  · exact write_lines_backward_eq input n
  · show write_lines_backward input 0 = input
    rw [write_lines_backward_eq input 0, Nat.sub_zero, List.take_length,
      linesOf_flatten]

theorem wlbFillQ_bound (n : Nat) :
    ∀ (input : List Nat) (len mx : Nat),
      (wlbFillQ input len mx n).1 ≤ max mx (len + n) ∧
      ∀ len2 rest, (wlbFillQ input len mx n).2 = some (len2, rest) →
        len2 ≤ len + n := by
  induction n with
  | zero =>
    intro input len mx
    refine ⟨Nat.le_max_left _ _, ?_⟩
    intro len2 rest h
    rw [wlbFillQ] at h
    injection h with h2
    injection h2 with h3 h4
    omega
  | succ n ih =>
    intro input len mx
    by_cases h : input = []
    · subst h
      rw [wlbFillQ]
      refine ⟨by simp, ?_⟩
      intro len2 rest h2
      simp at h2
    · rw [wlbFillQ, if_neg h]
      obtain ⟨ih1, ih2⟩ := ih (readUntil input).2 (len + 1) (max mx (len + 1))
      refine ⟨by omega, ?_⟩
      intro len2 rest h2
      have := ih2 len2 rest h2
      omega

theorem wlbLoopQ_bound (input : List Nat) (m mx : Nat) :
    wlbLoopQ input m mx ≤ max mx m := by
  induction input, m, mx using wlbLoopQ.induct with
  | case1 input mx => rw [wlbLoopQ]; exact Nat.le_max_left _ _
  | case2 m mx =>
    rw [wlbLoopQ, dif_pos rfl]
    exact Nat.le_max_left _ _
  | case3 input m mx h ih =>
    rw [wlbLoopQ, dif_neg h]
    omega

theorem wlbLoopQ_ge (input : List Nat) (m mx : Nat) :
    mx ≤ wlbLoopQ input m mx := by
  induction input, m, mx using wlbLoopQ.induct with
  | case1 input mx => rw [wlbLoopQ]
  | case2 m mx => rw [wlbLoopQ, dif_pos rfl]
  | case3 input m mx h ih =>
    rw [wlbLoopQ, dif_neg h]
    omega

/-- Claim C4 counterexample: with N = 1 on the three-line stream
a\nb\nc\n, the queue of write_lines_backward reaches 2 lines (the second
line is pushed before the first is popped and written), so it does not
stay at size at most N. -/
theorem c4_queue_counterexample :
    ¬ wlbMaxQueue (strBytes "a\nb\nc\n") 1 ≤ 1 := by
  intro hle
  unfold wlbMaxQueue at hle
  rw [show wlbFillQ (strBytes "a\nb\nc\n") 0 0 1 =
      (1, some (1, strBytes "b\nc\n")) from by decide] at hle
  change (if strBytes "b\nc\n" = [] then 1
    else wlbLoopQ (readUntil (strBytes "b\nc\n")).2 (1 + 1) (max 1 (1 + 1))) ≤ 1
    at hle
  rw [if_neg (by decide)] at hle
  have := wlbLoopQ_ge (readUntil (strBytes "b\nc\n")).2 (1 + 1) (max 1 (1 + 1))
  omega

/-- Claim C4 (amended): during backward-line extraction with count N the
queue never holds more than N + 1 lines: each newly read line is enqueued
first, bringing the queue briefly to N + 1, and only then is the oldest
line dequeued and written, returning the queue to N. -/
theorem c4_queue_bound_amended (input : List Nat) (n : Nat) :
    wlbMaxQueue input n ≤ n + 1 := by
  unfold wlbMaxQueue
  obtain ⟨h1, h2⟩ := wlbFillQ_bound n input 0 0
  rcases hfill : wlbFillQ input 0 0 n with ⟨mx, opt⟩
  rw [hfill] at h1 h2
  cases opt with
  | none =>
    change mx ≤ n + 1
    omega
  | some pr =>
    obtain ⟨len, rest⟩ := pr
    have hlen := h2 len rest rfl
    change (if rest = [] then mx
      else wlbLoopQ (readUntil rest).2 (len + 1) (max mx (len + 1))) ≤ n + 1
    by_cases hr : rest = []
    · rw [if_pos hr]
      omega
    · rw [if_neg hr]
      have := wlbLoopQ_bound (readUntil rest).2 (len + 1) (max mx (len + 1))
      omega

theorem takeWhile_append_all {α : Type} (p : α → Bool) (xs ys : List α)
    (h : ∀ c ∈ xs, p c = true) :
    (xs ++ ys).takeWhile p = xs ++ ys.takeWhile p := by
  induction xs with
  | nil => simp
  | cons a l ih =>
    rw [List.cons_append, List.takeWhile_cons, h a (List.mem_cons_self a l),
      ih fun c hc => h c (List.mem_cons_of_mem a hc)]
    rfl

theorem dropWhile_append_all {α : Type} (p : α → Bool) (xs ys : List α)
    (h : ∀ c ∈ xs, p c = true) :
    (xs ++ ys).dropWhile p = ys.dropWhile p := by
  induction xs with
  | nil => simp
  | cons a l ih =>
    rw [List.cons_append, List.dropWhile_cons, h a (List.mem_cons_self a l),
      ih fun c hc => h c (List.mem_cons_of_mem a hc)]
    rfl

theorem suffixExp_not_digit (c : Char) (e : Nat) (h : suffixExp c = some e) :
    c.isDigit = false := by
  unfold suffixExp at h
  split_ifs at h with h1 h2 h3 h4 h5 h6 h7 h8
  · rcases h1 with hc | hc <;> (subst hc; decide)
  · rcases h2 with hc | hc <;> (subst hc; decide)
  · rcases h3 with hc | hc <;> (subst hc; decide)
  · rcases h4 with hc | hc <;> (subst hc; decide)
  · rcases h5 with hc | hc <;> (subst hc; decide)
  · rcases h6 with hc | hc <;> (subst hc; decide)
  · rcases h7 with hc | hc <;> (subst hc; decide)
  · rcases h8 with hc | hc <;> (subst hc; decide)

theorem suffixMult_head_not_digit (suf : List Char) (m : Nat)
    (h : suffixMult suf = some m) :
    suf.takeWhile Char.isDigit = [] ∧ suf.dropWhile Char.isDigit = suf := by
  have hd : ∀ c ts, suf = c :: ts → c.isDigit = false := by
    intro c ts he
    subst he
    match ts with
    | [] =>
      have h2 : (if c = 'b' then some 512
          else (suffixExp c).map fun e =>
            if c.isUpper then (1000 : Nat) ^ e else 1024 ^ e) = some m := h
      by_cases hb : c = 'b'
      · subst hb; decide
      · rw [if_neg hb] at h2
        cases he2 : suffixExp c with
        | none => rw [he2] at h2; simp at h2
        | some e => exact suffixExp_not_digit c e he2
    | [b2] =>
      have h2 : (if b2 = 'B' then (suffixExp c).map fun e => (1000 : Nat) ^ e
          else none) = some m := h
      by_cases hb : b2 = 'B'
      · rw [if_pos hb] at h2
        cases he2 : suffixExp c with
        | none => rw [he2] at h2; simp at h2
        | some e => exact suffixExp_not_digit c e he2
      · rw [if_neg hb] at h2; simp at h2
    | b2 :: t :: ts2 => exact Option.noConfusion h
  cases suf with
  | nil => simp
  | cons c ts =>
    have := hd c ts rfl
    rw [List.takeWhile_cons, List.dropWhile_cons, this]
    simp

theorem parse_num_with_suffix_eq_some (cs : List Char) (n : Nat) :
    parse_num_with_suffix cs = some n ↔
      ∃ digs suf m,
        cs = digs ++ suf ∧ digs ≠ [] ∧ (∀ c ∈ digs, c.isDigit = true) ∧
        suffixMult suf = some m ∧ n = digitsVal digs * m ∧ n < 2 ^ 64 := by
  constructor
  · intro h
    unfold parse_num_with_suffix at h
    by_cases h1 : cs.takeWhile Char.isDigit = []
    · rw [if_pos h1] at h; exact absurd h (by simp)
    · rw [if_neg h1] at h
      cases hm : suffixMult (cs.dropWhile Char.isDigit) with
      | none => rw [hm] at h; simp at h
      | some m =>
        rw [hm] at h
        replace h : (if digitsVal (cs.takeWhile Char.isDigit) * m < 2 ^ 64 then
            some (digitsVal (cs.takeWhile Char.isDigit) * m) else none) = some n := h
        by_cases h2 : digitsVal (cs.takeWhile Char.isDigit) * m < 2 ^ 64
        · rw [if_pos h2] at h
          injection h with h3
          refine ⟨cs.takeWhile Char.isDigit, cs.dropWhile Char.isDigit, m,
            (List.takeWhile_append_dropWhile Char.isDigit cs).symm, h1,
            fun c hc => List.mem_takeWhile_imp hc, hm, h3.symm, ?_⟩
          rw [← h3]
          exact h2
        · rw [if_neg h2] at h; exact absurd h (by simp)
  · rintro ⟨digs, suf, m, rfl, hne, hdig, hsuf, rfl, hlt⟩
    unfold parse_num_with_suffix
    have ht : (digs ++ suf).takeWhile Char.isDigit = digs := by
      rw [takeWhile_append_all _ _ _ hdig,
        (suffixMult_head_not_digit suf m hsuf).1, List.append_nil]
    have hd : (digs ++ suf).dropWhile Char.isDigit = suf := by
      rw [dropWhile_append_all _ _ _ hdig,
        (suffixMult_head_not_digit suf m hsuf).2]
    rw [ht, hd, if_neg hne, hsuf]
    show (if digitsVal digs * m < 2 ^ 64 then
        some (digitsVal digs * m) else none) = some (digitsVal digs * m)
    rw [if_pos hlt]

theorem digit_ne_dash (c : Char) (h : c.isDigit = true) : ¬ c = '-' := by
  intro hc
  subst hc
  exact absurd h (by decide)

/-- Claim C5 counterexample: parse_num trims surrounding whitespace and
strips every leading dash, so the string with two leading dashes parses as
(5, negative) and the whitespace-padded string parses as (5, positive),
where the claim says both are malformed and must fail. -/
theorem c5_parse_num_counterexample :
    parse_num ['-', '-', '5'] = some (5, false) ∧
    parse_num [' ', '5', ' '] = some (5, true) := by
  constructor <;> decide

/-- Claim C5 (amended): parse_num succeeds, returning (magnitude,
positive), exactly on strings whose whitespace-trimmed form is zero or
more leading dashes (positive = false iff at least one is present)
followed by one or more digits and an optional multiplier suffix whose
value times the digit magnitude fits the native unsigned range; every
other string fails. -/
theorem c5_parse_num_amended (cs : List Char) (n : Nat) (pos : Bool) :
    parse_num cs = some (n, pos) ↔
      ∃ ds digs suf m,
        rustTrim cs = ds ++ (digs ++ suf) ∧
        (∀ c ∈ ds, c = '-') ∧
        digs ≠ [] ∧ (∀ c ∈ digs, c.isDigit = true) ∧
        suffixMult suf = some m ∧
        n = digitsVal digs * m ∧ n < 2 ^ 64 ∧
        pos = ds.isEmpty := by
  constructor
  · intro h
    unfold parse_num at h
    cases ht : rustTrim cs with
    | nil => rw [ht] at h; exact absurd h (by simp)
    | cons c rest =>
      rw [ht] at h
      replace h : (if c = '-' then
          Option.map (fun n => (n, false))
            (parse_num_with_suffix ((c :: rest).dropWhile fun x => x = '-'))
        else Option.map (fun n => (n, true)) (parse_num_with_suffix (c :: rest))) =
          some (n, pos) := h
      by_cases hc : c = '-'
      · rw [if_pos hc] at h
        cases hp : parse_num_with_suffix
            ((c :: rest).dropWhile fun x => x = '-') with
        | none => rw [hp] at h; exact Option.noConfusion h
        | some n0 =>
          rw [hp] at h
          replace h : some (n0, false) = some (n, pos) := h
          injection h with h2
          injection h2 with h3 h4
          subst h3
          obtain ⟨digs, suf, m, hsplit, hne, hdig, hsuf, hval, hlt⟩ :=
            (parse_num_with_suffix_eq_some _ _).mp hp
          refine ⟨(c :: rest).takeWhile fun x => x = '-', digs, suf, m,
            ?_, ?_, hne, hdig, hsuf, hval, hlt, ?_⟩
          · rw [← hsplit, List.takeWhile_append_dropWhile]
          · intro x hx
            have hx2 := List.mem_takeWhile_imp (p := fun x => decide (x = '-')) hx
            exact of_decide_eq_true hx2
          · subst hc
            rw [List.takeWhile_cons]
            simp [← h4]
      · rw [if_neg hc] at h
        cases hp : parse_num_with_suffix (c :: rest) with
        | none => rw [hp] at h; exact Option.noConfusion h
        | some n0 =>
          rw [hp] at h
          replace h : some (n0, true) = some (n, pos) := h
          injection h with h2
          injection h2 with h3 h4
          subst h3
          obtain ⟨digs, suf, m, hsplit, hne, hdig, hsuf, hval, hlt⟩ :=
            (parse_num_with_suffix_eq_some _ _).mp hp
          exact ⟨[], digs, suf, m, by rw [List.nil_append, ← hsplit],
            by simp, hne, hdig, hsuf, hval, hlt, by simp [← h4]⟩
  · rintro ⟨ds, digs, suf, m, htrim, hds, hne, hdig, hsuf, hval, hlt, hpos⟩
    unfold parse_num
    rw [htrim]
    have hpn : parse_num_with_suffix (digs ++ suf) = some n :=
      (parse_num_with_suffix_eq_some _ _).mpr
        ⟨digs, suf, m, rfl, hne, hdig, hsuf, hval, hlt⟩
    obtain ⟨d, dt, hdigs⟩ : ∃ d dt, digs = d :: dt := by
      cases digs with
      | nil => exact absurd rfl hne
      | cons d dt => exact ⟨d, dt, rfl⟩
    have hddig : d.isDigit = true := by
      apply hdig
      rw [hdigs]
      exact List.mem_cons_self d dt
    cases ds with
    | nil =>
      rw [List.nil_append, hdigs, List.cons_append]
      show (if d = '-' then
          Option.map (fun n => (n, false))
            (parse_num_with_suffix ((d :: (dt ++ suf)).dropWhile fun x => x = '-'))
        else Option.map (fun n => (n, true))
          (parse_num_with_suffix (d :: (dt ++ suf)))) = some (n, pos)
      rw [if_neg (digit_ne_dash d hddig)]
      rw [← List.cons_append, ← hdigs, hpn, hpos]
      rfl
    | cons d0 dt0 =>
      have hd0 : d0 = '-' := hds d0 (List.mem_cons_self d0 dt0)
      rw [List.cons_append]
      show (if d0 = '-' then
          Option.map (fun n => (n, false))
            (parse_num_with_suffix
              ((d0 :: (dt0 ++ (digs ++ suf))).dropWhile fun x => x = '-'))
        else Option.map (fun n => (n, true))
          (parse_num_with_suffix (d0 :: (dt0 ++ (digs ++ suf))))) = some (n, pos)
      rw [if_pos hd0]
      have hdrop : ((d0 :: dt0) ++ (digs ++ suf)).dropWhile
          (fun x => decide (x = '-')) = digs ++ suf := by
        rw [dropWhile_append_all _ _ _ fun c hc =>
          decide_eq_true (hds c hc)]
        rw [hdigs, List.cons_append, List.dropWhile_cons]
        rw [decide_eq_false (digit_ne_dash d hddig)]
        rfl
      rw [List.cons_append] at hdrop
      rw [hdrop, hpn, hpos]
      rfl

theorem strBytes_tail_nl : strBytes " <==\n" = strBytes " <==" ++ [10] := by
  decide

theorem strBytes_nl_head : strBytes "\n==> " = 10 :: strBytes "==> " := by
  decide

theorem headerBytes_false (name : List Nat) :
    headerBytes false name = specHeaderLine name := by
  unfold headerBytes specHeaderLine
  rw [if_neg Bool.false_ne_true, strBytes_tail_nl]
  simp [List.append_assoc]

theorem headerBytes_true (name : List Nat) :
    headerBytes true name = 10 :: specHeaderLine name := by
  unfold headerBytes specHeaderLine
  rw [if_pos rfl, strBytes_nl_head, strBytes_tail_nl]
  simp [List.append_assoc]

theorem execLoop_err (sh : Bool) :
    ∀ (srcs : List Src) (prev : Bool) (res : Option MesaError),
      (execLoop sh srcs prev res).2.1 = (srcs.map srcDiag).flatten := by
  intro srcs
  induction srcs with
  | nil => intro prev res; rfl
  | cons s rest ih =>
    intro prev res
    rw [execLoop]
    simp only [List.map_cons, List.flatten_cons]
    rw [ih]

theorem execLoop_res (sh : Bool) :
    ∀ (srcs : List Src) (prev : Bool) (res : Option MesaError),
      (execLoop sh srcs prev res).2.2 =
        match lastFailure srcs with
        | some e => some (clearErr e)
        | none => res := by
  intro srcs
  induction srcs with
  | nil => intro prev res; rfl
  | cons s rest ih =>
    intro prev res
    rw [execLoop, lastFailure]
    show (execLoop sh rest (processSrc sh prev s).2 (nextResult s res)).2.2 = _
    rw [ih]
    cases hl : lastFailure rest with
    | some e2 => rfl
    | none =>
      unfold nextResult
      cases srcError s <;> rfl

theorem execLoop_out (sh : Bool) :
    ∀ (srcs : List Src) (k : Nat) (res : Option MesaError),
      (execLoop sh srcs (decide (0 < k)) res).1 = specRender sh srcs k := by
  intro srcs
  induction srcs with
  | nil => intro k res; rfl
  | cons s rest ih =>
    intro k res
    cases ho : s.outcome with
    | openFail e =>
      have hp : processSrc sh (decide (0 < k)) s = ([], decide (0 < k)) := by
        unfold processSrc
        rw [ho]
      rw [execLoop, specRender, ho, hp]
      change [] ++ (execLoop sh rest (decide (0 < k)) (nextResult s res)).1 =
        specRender sh rest k
      rw [List.nil_append, ih k (nextResult s res)]
    | ok =>
      have hp : processSrc sh (decide (0 < k)) s =
          ((if sh then headerBytes (decide (0 < k)) (displayName s.name) else []) ++
            s.body, decide (0 < k) || sh) := by
        unfold processSrc
        rw [ho]
      rw [execLoop, specRender, ho, hp]
      cases sh with
      | false =>
        have hih := ih k (nextResult s res)
        change (if false = true then headerBytes (decide (0 < k))
            (displayName s.name) else []) ++ s.body ++
            (execLoop false rest (decide (0 < k) || false) (nextResult s res)).1 =
          if false = true then
            (if k = 0 then [] else [10]) ++ specHeaderLine (displayName s.name) ++
              s.body ++ specRender false rest (k + 1)
          else s.body ++ specRender false rest k
        rw [if_neg Bool.false_ne_true, if_neg Bool.false_ne_true,
          List.nil_append, Bool.or_false, hih]
      | true =>
        have hih := ih (k + 1) (nextResult s res)
        rw [show decide (0 < k + 1) = true from by simp] at hih
        change (if true = true then headerBytes (decide (0 < k))
            (displayName s.name) else []) ++ s.body ++
            (execLoop true rest (decide (0 < k) || true) (nextResult s res)).1 =
          if true = true then
            (if k = 0 then [] else [10]) ++ specHeaderLine (displayName s.name) ++
              s.body ++ specRender true rest (k + 1)
          else s.body ++ specRender true rest k
        rw [if_pos rfl, if_pos rfl, Bool.or_true, hih]
        cases Nat.eq_zero_or_pos k with
        | inl hk =>
          subst hk
          rw [show (decide ((0 : Nat) < 0)) = false from rfl, headerBytes_false,
            if_pos rfl]
          simp [List.append_assoc]
        | inr hk =>
          rw [show (decide (0 < k)) = true from by simpa using hk, headerBytes_true,
            if_neg (by omega)]
          simp [List.append_assoc]
    | midFail e =>
      have hp : processSrc sh (decide (0 < k)) s =
          ((if sh then headerBytes (decide (0 < k)) (displayName s.name) else []) ++
            s.body, decide (0 < k) || sh) := by
        unfold processSrc
        rw [ho]
      rw [execLoop, specRender, ho, hp]
      cases sh with
      | false =>
        have hih := ih k (nextResult s res)
        change (if false = true then headerBytes (decide (0 < k))
            (displayName s.name) else []) ++ s.body ++
            (execLoop false rest (decide (0 < k) || false) (nextResult s res)).1 =
          if false = true then
            (if k = 0 then [] else [10]) ++ specHeaderLine (displayName s.name) ++
              s.body ++ specRender false rest (k + 1)
          else s.body ++ specRender false rest k
        rw [if_neg Bool.false_ne_true, if_neg Bool.false_ne_true,
          List.nil_append, Bool.or_false, hih]
      | true =>
        have hih := ih (k + 1) (nextResult s res)
        rw [show decide (0 < k + 1) = true from by simp] at hih
        change (if true = true then headerBytes (decide (0 < k))
            (displayName s.name) else []) ++ s.body ++
            (execLoop true rest (decide (0 < k) || true) (nextResult s res)).1 =
          if true = true then
            (if k = 0 then [] else [10]) ++ specHeaderLine (displayName s.name) ++
              s.body ++ specRender true rest (k + 1)
          else s.body ++ specRender true rest k
        rw [if_pos rfl, if_pos rfl, Bool.or_true, hih]
        cases Nat.eq_zero_or_pos k with
        | inl hk =>
          subst hk
          rw [show (decide ((0 : Nat) < 0)) = false from rfl, headerBytes_false,
            if_pos rfl]
          simp [List.append_assoc]
        | inr hk =>
          rw [show (decide (0 < k)) = true from by simpa using hk, headerBytes_true,
            if_neg (by omega)]
          simp [List.append_assoc]

theorem lastFailure_eq_none (srcs : List Src) :
    lastFailure srcs = none ↔ ∀ s ∈ srcs, srcError s = none := by
  induction srcs with
  | nil => simp [lastFailure]
  | cons s rest ih =>
    rw [lastFailure]
    cases hl : lastFailure rest with
    | some e2 =>
      constructor
      · intro h; exact absurd h (by simp)
      · intro h
        have : lastFailure rest = none := ih.mpr fun t ht =>
          h t (List.mem_cons_of_mem s ht)
        rw [hl] at this
        exact this
    | none =>
      constructor
      · intro h
        intro t ht
        cases ht with
        | head => exact h
        | tail _ ht2 => exact (ih.mp hl) t ht2
      · intro h
        exact h s (List.mem_cons_self s rest)

/-- Claim C6: every listed source is attempted and contributes exactly its
own diagnostic line to the error channel when (and only when) it fails, in
source order; the invocation's result is success if and only if no source
failed. -/
theorem c6_per_source_errors (quiet verbose : Bool) (srcs : List Src) :
    (execute quiet verbose srcs).2.1 = (srcs.map srcDiag).flatten ∧
    ((execute quiet verbose srcs).2.2 = none ↔ ∀ s ∈ srcs, srcError s = none) := by
  unfold execute
  refine ⟨execLoop_err _ srcs false none, ?_⟩
  rw [execLoop_res _ srcs false none]
  cases hl : lastFailure srcs with
  | some e =>
    simp only [reduceCtorEq, false_iff]
    intro h
    rw [(lastFailure_eq_none srcs).mpr h] at hl
    exact Option.noConfusion hl
  | none =>
    simp only [true_iff]
    exact (lastFailure_eq_none srcs).mp hl

/-- Claim C7 counterexample: under verbose (header policy Always) a source
that fails to open gets no header at all; a single failing source produces
empty standard output where the claim requires a header line for every
source. -/
theorem c7_header_counterexample :
    (execute false true
      [⟨strBytes "f", strBytes "xyz", Outcome.openFail ⟨strBytes "boom", none⟩⟩]).1 =
      [] ∧
    specHeaderLine (strBytes "f") ≠ [] := by
  constructor <;> decide

/-- Claim C7 (amended): standard output is exactly the spec rendering: for
every source that opens, a header when the policy asks for one (quiet gives
Never, verbose gives Always overriding quiet, otherwise Default which
prints only when the invocation names more than one source), in the form
==> name <== with one blank line before every header except the first
emitted, then the source's bytes; sources that fail to open contribute
nothing, not even a header. -/
theorem c7_headers_amended (quiet verbose : Bool) (srcs : List Src) :
    (execute quiet verbose srcs).1 =
      specRender (policyShows (headerPolicyOf quiet verbose) srcs.length) srcs 0 := by
  unfold execute
  have hpol : ((decide (1 < srcs.length) && !quiet) || verbose) =
      policyShows (headerPolicyOf quiet verbose) srcs.length := by
    cases quiet <;> cases verbose <;>
      simp [headerPolicyOf, policyShows]
  rw [hpol]
  exact execLoop_out _ srcs 0 none

/-- Claim C10: each failing source's diagnostic is written to the error
channel exactly once, at its position in source order, and the driver's
final result is the last failing source's error with its underlying cause
cleared (err = None), so the caller never prints a failure message a second
time. -/
theorem c10_last_error_cleared (quiet verbose : Bool) (srcs : List Src) :
    (execute quiet verbose srcs).2.2 = (lastFailure srcs).map clearErr ∧
    (execute quiet verbose srcs).2.1 = (srcs.map srcDiag).flatten := by
  unfold execute
  refine ⟨?_, execLoop_err _ srcs false none⟩
  rw [execLoop_res _ srcs false none]
  cases lastFailure srcs <;> rfl

end Mesabox
